import Mathlib

/-!
Verification of the ag-loader registry scanner and transform/emit pipeline.

The TypeScript sources (src/config.ts, src/index.ts) are shallowly embedded
below.  Strings are modelled as `List Char`; the JavaScript regular
expressions used by the code are embedded as explicit scanning functions
whose behaviour matches the ECMAScript semantics of the concrete patterns
(`/^---[\s\S]*?---\n+/`, `/^#\s+(.+)$/m`) on the relevant inputs.
Filesystem reads are passed in as explicit arguments (directory listings,
file-content maps); writes are returned as explicit (path, content) pairs.
-/

/-- Convert a string literal to the `List Char` representation used throughout. -/
def toL (s : String) : List Char := s.data

/-- JavaScript whitespace (the `\s` character class and `trimStart`/`trim`):
space, tab, line feed, vertical tab, form feed, carriage return, NBSP,
the Unicode space range, line/paragraph separators and BOM. -/
def isJsWs (c : Char) : Bool :=
  c == ' ' || c == '\t' || c == '\n' || c == '\x0b' || c == '\x0c' || c == '\r' ||
  c == '\u00a0' || c == '\u1680' || ('\u2000' ≤ c && c ≤ '\u200a') ||
  c == '\u2028' || c == '\u2029' || c == '\u202f' || c == '\u205f' ||
  c == '\u3000' || c == '\ufeff'

/-- JavaScript line terminators (relevant to `.`, multiline `^`/`$`). -/
def isLineTerm (c : Char) : Bool :=
  c == '\n' || c == '\r' || c == '\u2028' || c == '\u2029'

/-- A character `.` can match: anything but a line terminator. -/
def notTerm (c : Char) : Bool := !(isLineTerm c)

/-- Model of `String.prototype.trimStart`. -/
def trimStartL (cs : List Char) : List Char := cs.dropWhile isJsWs

/-- Model of trimming trailing whitespace. -/
def trimEndL (cs : List Char) : List Char := (cs.reverse.dropWhile isJsWs).reverse

/-- Model of `String.prototype.trim`. -/
def trimL (cs : List Char) : List Char := trimEndL (trimStartL cs)

/-- Does the text start with the three-hyphen delimiter `---`? -/
def startsDashes (cs : List Char) : Bool := cs.take 3 == toL "---"

/-- Does the text start with `---` immediately followed by a newline
(the shape the closing part `---\n` of the frontmatter regex requires)? -/
def startsClose (cs : List Char) : Bool := cs.take 4 == toL "---\n"

/-- Embedding of `hasFrontmatter` (src/index.ts:60-62):
`content.trimStart().startsWith('---')`. -/
def hasFrontmatter (cs : List Char) : Bool := startsDashes (trimStartL cs)

/-- Drop the greedy run of newlines consumed by the `\n+` part of the regex. -/
def dropNl (cs : List Char) : List Char := cs.dropWhile (· == '\n')

/-- Scanning part of `raw.replace(/^---[\s\S]*?---\n+/, '')`: after the opening
`---` has been consumed, lazily search for the first position where `---`
immediately followed by a newline occurs; on success return the suffix after
the closing `---` and the greedy run of newlines. `none` means the regex does
not match and `replace` leaves the string unchanged. -/
def findTerm : List Char → Option (List Char)
  | [] => none
  | c :: cs => if startsClose (c :: cs) then some (dropNl (cs.drop 3)) else findTerm cs

/-- Embedding of `raw.replace(/^---[\s\S]*?---\n+/, '')` (src/index.ts:91):
the pattern is anchored at position 0 (no `m` flag), so it matches only when
the raw text literally starts with `---`; the lazy middle makes the match end
at the first later occurrence of `---` followed by one or more newlines. -/
def replaceFm (cs : List Char) : List Char :=
  if startsDashes cs then
    match findTerm (cs.drop 3) with
    | some rem => rem
    | none => cs
  else cs

/-- Embedding of the pure content transformation performed by `readMarkdown`
(src/index.ts:87-94) on the raw file text. -/
def readMarkdown (cs : List Char) : List Char :=
  if hasFrontmatter cs then trimStartL (replaceFm cs) else cs

/-- Backtracking search for the capture of `/^#\s+(.+)$/m` once a candidate
`#` has been found at a line start.  `rest` is the text after the `#`; the
argument counts how many whitespace characters `\s+` currently consumes
(starting from the maximal run, backing off greedily).  The capture starts at
the first position after the consumed whitespace holding a character `.` can
match (not a line terminator) and extends to the end of that line. -/
def capAt (rest : List Char) : Nat → Option (List Char)
  | 0 => none
  | n + 1 =>
    match rest.drop (n + 1) with
    | [] => capAt rest n
    | c :: _ =>
      if isLineTerm c then capAt rest n
      else some ((rest.drop (n + 1)).takeWhile notTerm)

/-- Attempt of `/^#\s+(.+)$/m` at one candidate position: the `#` has been
consumed and `rest` follows; `\s+` greedily takes the maximal whitespace run
(which may cross newlines) and backs off until `(.+)$` matches. -/
def h1At (rest : List Char) : Option (List Char) :=
  capAt rest (rest.takeWhile isJsWs).length

/-- Scanner of `content.match(/^#\s+(.+)$/m)`: walk the text; at every line
start holding `#`, try `h1At`; the first successful attempt wins.  The flag
records whether the current position is a line start (start of input or
immediately after a line terminator). -/
def extractH1Core : List Char → Bool → Option (List Char)
  | [], _ => none
  | c :: rest, atStart =>
    if atStart && (c == '#') then
      match h1At rest with
      | some cap => some cap
      | none => extractH1Core rest false
    else extractH1Core rest (isLineTerm c)

/-- Embedding of `extractH1` (src/index.ts:55-58):
`match ? match[1].trim() : ''`. -/
def extractH1 (cs : List Char) : List Char :=
  match extractH1Core cs true with
  | some cap => trimL cap
  | none => []

/-- JavaScript `a || b` on strings: the empty string is falsy.  Used for
`extractH1(body) || baseName` at the three call sites. -/
def orElseName (t fallback : List Char) : List Char :=
  if t.isEmpty then fallback else t

/-- Model of `path.join` for the paths built here (plain names, no
normalisation needed). -/
def joinP (a b : List Char) : List Char := a ++ '/' :: b

/-- Does `s` end with `suffix`? (`String.prototype.endsWith`). -/
def endsWithL (s suffix : List Char) : Bool :=
  s.drop (s.length - suffix.length) == suffix

/-- Model of `path.basename(file, path.extname(file))` for the plain file
names produced by `readdir`: strip the part from the last dot on, unless
there is no dot or the only dot is the leading character. -/
def baseNoExt (s : List Char) : List Char :=
  let tailLen := (s.reverse.takeWhile (fun c => c != '.')).length
  if tailLen + 1 < s.length then s.take (s.length - tailLen - 1) else s

/-- Model of `path.basename(file, '.md')` (used by the consolidated Copilot
mode): strip a trailing `.md` unless the whole name is `.md`. -/
def baseNoMd (s : List Char) : List Char :=
  if 3 < s.length && endsWithL s (toL ".md") then s.take (s.length - 3) else s

/-- Embedding of `STACK_GLOBS` (src/index.ts:31-42) in object-literal
insertion order, which is the order `Object.entries` yields. -/
def STACK_GLOBS : List (List Char × List Char) :=
  [(toL "react",   toL "**/*.\x7btsx,jsx,ts,js\x7d"),
   (toL "next",    toL "**/*.\x7btsx,jsx,ts,js\x7d"),
   (toL "vue",     toL "**/*.\x7bvue,ts,js\x7d"),
   (toL "angular", toL "**/*.\x7bts,html\x7d"),
   (toL "svelte",  toL "**/*.\x7bsvelte,ts\x7d"),
   (toL "shopify", toL "**/*.\x7bliquid,json\x7d"),
   (toL "node",    toL "**/*.\x7bts,js\x7d"),
   (toL "python",  toL "**/*.py"),
   (toL "laravel", toL "**/*.\x7bphp,blade.php\x7d"),
   (toL "nuxt",    toL "**/*.\x7bvue,ts\x7d")]

/-- ASCII lowering, the effect of `toLowerCase` on the characters that can
influence the keyword table. -/
def toLowerAscii (c : Char) : Char :=
  if 'A' ≤ c && c ≤ 'Z' then Char.ofNat (c.toNat + 32) else c

/-- Model of `stackName.toLowerCase()`. -/
def lowerL (s : List Char) : List Char := s.map toLowerAscii

/-- Does the first list start with the second (`String.prototype.startsWith`)? -/
def startsWithL : List Char → List Char → Bool
  | _, [] => true
  | [], _ :: _ => false
  | c :: cs, p :: ps => c == p && startsWithL cs ps

/-- Substring containment (`String.prototype.includes`). -/
def containsL : List Char → List Char → Bool
  | [], p => p.isEmpty
  | c :: cs, p => startsWithL (c :: cs) p || containsL cs p

/-- The `for`-loop of `globForStack` (src/index.ts:44-50): first keyword that
is a substring of the lowered stack name wins; fall back to `**/*`. -/
def findGlob : List (List Char × List Char) → List Char → List Char
  | [], _ => toL "**/*"
  | kv :: rest, lower => if containsL lower kv.1 then kv.2 else findGlob rest lower

/-- Embedding of `globForStack` (src/index.ts:44-50). -/
def globForStack (stackName : List Char) : List Char :=
  findGlob STACK_GLOBS (lowerL stackName)

/-- JavaScript `String(boolean)` as interpolated into the template literal. -/
def boolStr (b : Bool) : List Char := if b then toL "true" else toL "false"

/-- Embedding of `buildMdcFrontmatter` (src/index.ts:65-71). -/
def buildMdcFrontmatter (description globs : List Char) (alwaysApply : Bool) : List Char :=
  toL "---\ndescription: " ++ description ++ toL "\nglobs: " ++ globs ++
  toL "\nalwaysApply: " ++ boolStr alwaysApply ++ toL "\n---\n\n"

/-- Mirror of the `CategoryEntry` interface (src/config.ts:13-17). -/
structure CategoryEntry where
  name : List Char
  files : List (List Char)
  absPath : List Char
deriving DecidableEq

/-- The per-file work of the `injectCursor` loop body (src/index.ts:144-157)
on one source file whose raw text is `raw`: destination path and content. -/
def cursorEmit (stackName : List Char) (alwaysApply : Bool) (file raw : List Char) :
    List Char × List Char :=
  let baseName := baseNoExt file
  let body := readMarkdown raw
  let description := orElseName (extractH1 body) baseName
  (joinP (toL ".cursor/rules") (baseName ++ toL ".mdc"),
   buildMdcFrontmatter description (globForStack stackName) alwaysApply ++ body)

/-- Embedding of `injectCursor` (src/index.ts:134-167) as the sequence of
(path, content) writes it performs, given the file contents `readF` keyed by
absolute source path. -/
def injectCursor (cat : CategoryEntry) (stackName : List Char) (alwaysApply : Bool)
    (readF : List Char → List Char) : List (List Char × List Char) :=
  cat.files.map (fun file =>
    cursorEmit stackName alwaysApply file (readF (joinP cat.absPath file)))

/-- One section of the consolidated Copilot output (src/index.ts:214-219). -/
def copilotSection (readF : List Char → List Char) (absPath file : List Char) : List Char :=
  let content := readMarkdown (readF (joinP absPath file))
  let title := orElseName (extractH1 content) (baseNoMd file)
  toL "# " ++ title ++ toL "\n\n" ++ trimL content

/-- Embedding of the `mode === 'global'` branch of `injectCopilot`
(src/index.ts:207-225): the single write it performs. -/
def injectCopilotGlobal (cat : CategoryEntry) (readF : List Char → List Char) :
    List Char × List Char :=
  (toL ".github/copilot-instructions.md",
   List.intercalate (toL "\n\n---\n\n") (cat.files.map (copilotSection readF cat.absPath)))

/-- One entry of a `readdir(..., \x7b withFileTypes: true \x7d)` listing. -/
structure FsEntry where
  name : List Char
  isDir : Bool
  isFile : Bool
deriving DecidableEq

/-- Names of the regular files with extension `.md` in a listing, in listing
order (the filter-map applied at src/config.ts:78-80 and 89-91). -/
def mdNamesOf (es : List FsEntry) : List (List Char) :=
  (es.filter (fun e => e.isFile && endsWithL e.name (toL ".md"))).map FsEntry.name

/-- The sentinel category name used when a stack has no subdirectories. -/
def rootName : List Char := toL "__root__"

/-- Embedding of `getCategoriesForStack` (src/config.ts:69-96).  `entries` is
the `readdir` listing of the stack directory and `sub` gives the listing of
each immediate subdirectory (keyed by its name). -/
def getCategoriesForStack (stackPath : List Char) (entries : List FsEntry)
    (sub : List Char → List FsEntry) : List CategoryEntry :=
  let subDirs := entries.filter FsEntry.isDir
  if subDirs.isEmpty then [⟨rootName, mdNamesOf entries, stackPath⟩]
  else subDirs.map (fun d => ⟨d.name, mdNamesOf (sub d.name), joinP stackPath d.name⟩)

/-- Lines of a text, split at every JavaScript line terminator (each
terminator ends a line; a trailing terminator yields a final empty line).
Used by the specification-side readings of the claims. -/
def linesOf : List Char → List (List Char)
  | [] => [[]]
  | c :: rest =>
    if isLineTerm c then [] :: linesOf rest
    else
      match linesOf rest with
      | l :: ls => (c :: l) :: ls
      | [] => [[c]]

/-- Join lines back with newlines. -/
def unlines (ls : List (List Char)) : List Char := List.intercalate (toL "\n") ls

/-- A blank line: empty or whitespace only. -/
def isBlankL (l : List Char) : Bool := l.all isJsWs

/-- Claim C2's wording of the frontmatter strip, defined from the
specification text and not from the source: if the content begins with a
`---` line, remove from that line through the next `---` line inclusive,
plus trailing blank lines; otherwise leave the content alone. -/
def specStripC2 (cs : List Char) : List Char :=
  match linesOf cs with
  | l0 :: rest =>
    if l0 == toL "---" then
      match List.findIdx? (fun l => l == toL "---") rest with
      | some j => unlines ((rest.drop (j + 1)).dropWhile isBlankL)
      | none => cs
    else cs
  | [] => cs

/-- Single-line reading of `/^#\s+(.+)$/` applied to one line (which contains
no line terminators): `#`, then at least one whitespace character, then a
nonempty capture extending to the end of the line, with greedy back-off when
the line ends in whitespace.  Defined for the specification-side reading of
claim C6. -/
def lineMatch (line : List Char) : Option (List Char) :=
  match line with
  | [] => none
  | c :: rest =>
    if c = '#' then
      if (rest.takeWhile isJsWs).length = 0 then none
      else if (rest.takeWhile isJsWs).length < rest.length then
        some (rest.drop (rest.takeWhile isJsWs).length)
      else if 2 ≤ rest.length then some (rest.drop (rest.length - 1))
      else none
    else none

/-- First line with a single-line heading match. -/
def firstMatchL : List (List Char) → Option (List Char)
  | [] => none
  | l :: ls =>
    match lineMatch l with
    | some cap => some cap
    | none => firstMatchL ls

/-- Claim C6's wording of title derivation, defined from the specification
text: the trimmed text of the first line matching `# ...` as a single-line
match, else the fallback name. -/
def specTitleSL (body fallback : List Char) : List Char :=
  match firstMatchL (linesOf body) with
  | some cap => trimL cap
  | none => fallback

/-- The code's title derivation as used at the injection sites
(src/index.ts:113, 152, 217): `extractH1(body) || fallback`. -/
def codeTitle (body fallback : List Char) : List Char :=
  orElseName (extractH1 body) fallback

/-- A line consisting of `#` followed only by whitespace (through the end of
the line).  Such lines are exactly those on which the code's multi-line
`\s+` can spill the heading match onto a later line. -/
def bareSharpLine : List Char → Bool
  | [] => false
  | c :: rest => c == '#' && rest.all isJsWs

/-- Guard of the amended claim C6: no line of the body is a bare `#` line. -/
def noBareSharp (body : List Char) : Bool :=
  (linesOf body).all (fun l => !(bareSharpLine l))

/-- The suffix of the text beginning right after the end of its first line
(after the first line terminator); empty when there is no terminator. -/
def afterLine (s : List Char) : List Char :=
  (s.dropWhile notTerm).drop 1

/-- Claim C7's wording of the consolidated Copilot content, defined from the
specification text: sections `# <derivedTitle>\n\n<body>` (the frontmatter-
stripped body, not trimmed) joined by the horizontal-rule separator. -/
def specCopilotSingle (cat : CategoryEntry) (readF : List Char → List Char) : List Char :=
  List.intercalate (toL "\n\n---\n\n") (cat.files.map (fun f =>
    toL "# " ++ orElseName (extractH1 (readMarkdown (readF (joinP cat.absPath f))))
      (baseNoMd f) ++
    toL "\n\n" ++ readMarkdown (readF (joinP cat.absPath f))))

/-- One iteration of the `injectCursor` loop with fallible filesystem
operations: read the source file, then write the destination; either
operation may fail with an error that is returned as-is. -/
def cursorStep (stackName : List Char) (alwaysApply : Bool) (absPath : List Char)
    (readF : List Char → Except (List Char) (List Char))
    (writeF : List Char → List Char → Except (List Char) Unit)
    (file : List Char) : Except (List Char) (List Char × List Char) :=
  match readF (joinP absPath file) with
  | .error e => .error e
  | .ok raw =>
    match writeF (cursorEmit stackName alwaysApply file raw).1
        (cursorEmit stackName alwaysApply file raw).2 with
    | .error e => .error e
    | .ok _ => .ok (cursorEmit stackName alwaysApply file raw)

/-- Sequential processing of a category's files (the `for ... of` loop with
`await` in each iteration): files are handled strictly in listing order; the
first failure stops everything after it, keeps the writes already made, and
surfaces the error unmodified. -/
def processFiles (step : List Char → Except (List Char) (List Char × List Char)) :
    List (List Char) → List (List Char × List Char) × Option (List Char)
  | [] => ([], none)
  | f :: fs =>
    match step f with
    | .error e => ([], some e)
    | .ok w =>
      match processFiles step fs with
      | (ws, r) => (w :: ws, r)

/-- `injectCursor` with fallible filesystem operations: the writes completed
(in order) and the error that stopped the loop, if any. -/
def injectCursorE (cat : CategoryEntry) (stackName : List Char) (alwaysApply : Bool)
    (readF : List Char → Except (List Char) (List Char))
    (writeF : List Char → List Char → Except (List Char) Unit) :
    List (List Char × List Char) × Option (List Char) :=
  processFiles (cursorStep stackName alwaysApply cat.absPath readF writeF) cat.files

/-- Filesystem state for the scanner claims: an association of directory
paths to their listings. -/
abbrev FS := List (List Char × List FsEntry)

/-- Listing of the directory at a path, if it exists. -/
def lookupFS (fs : FS) (p : List Char) : Option (List FsEntry) :=
  (fs.find? (fun kv => kv.1 == p)).map Prod.snd

/-- Model of `fs.ensureDir`: create the directory (empty) when absent,
change nothing when present. -/
def ensureDirFS (fs : FS) (p : List Char) : FS :=
  match lookupFS fs p with
  | some _ => fs
  | none => (p, []) :: fs

/-- Stack names visible in an editor directory listing. -/
def stackNamesFS (fs : FS) (editorPath : List Char) : List (List Char) :=
  (((lookupFS fs editorPath).getD []).filter FsEntry.isDir).map FsEntry.name

/-- Embedding of `getStacksForEditor` (src/config.ts:55-63) as a state
transformer: it ensures the editor directory exists, then lists it. -/
def getStacksForEditorFS (fs : FS) (registry editor : List Char) :
    FS × List (List Char) :=
  let fs2 := ensureDirFS fs (joinP registry editor)
  (fs2, stackNamesFS fs2 (joinP registry editor))

/-- The category loop of `getCategoriesForStack` over the subdirectories,
reading each subdirectory's listing from the filesystem state (a missing
directory surfaces as an error, as `readdir` would throw). -/
def catsAuxFS (fs : FS) (stackPath : List Char) :
    List FsEntry → Except (List Char) (List CategoryEntry)
  | [] => .ok []
  | d :: ds =>
    match lookupFS fs (joinP stackPath d.name) with
    | none => .error (toL "ENOENT")
    | some es =>
      match catsAuxFS fs stackPath ds with
      | .error e => .error e
      | .ok cs => .ok (⟨d.name, mdNamesOf es, joinP stackPath d.name⟩ :: cs)

/-- Embedding of `getCategoriesForStack` reading from the filesystem state
(read-only). -/
def getCategoriesForStackFS (fs : FS) (registry editor stack : List Char) :
    Except (List Char) (List CategoryEntry) :=
  match lookupFS fs (joinP (joinP registry editor) stack) with
  | none => .error (toL "ENOENT")
  | some entries =>
    let stackPath := joinP (joinP registry editor) stack
    let subDirs := entries.filter FsEntry.isDir
    if subDirs.isEmpty then .ok [⟨rootName, mdNamesOf entries, stackPath⟩]
    else catsAuxFS fs stackPath subDirs

/-- The per-stack loop of `getEditorTree` (read-only). -/
def treeAuxFS (fs : FS) (registry editor : List Char) :
    List (List Char) → Except (List Char) (List (List Char × List CategoryEntry))
  | [] => .ok []
  | s :: ss =>
    match getCategoriesForStackFS fs registry editor s with
    | .error e => .error e
    | .ok cats =>
      match treeAuxFS fs registry editor ss with
      | .error e => .error e
      | .ok rest => .ok ((s, cats) :: rest)

/-- Embedding of `getEditorTree` (src/config.ts:101-112) as a state
transformer: the resulting filesystem state and the inventory tree. -/
def getEditorTreeFS (fs : FS) (registry editor : List Char) :
    FS × Except (List Char) (List (List Char × List CategoryEntry)) :=
  let st := getStacksForEditorFS fs registry editor
  (st.1, treeAuxFS st.1 registry editor st.2)

/-! ## Helper lemmas -/

theorem readMarkdown_no_fm {cs : List Char} (h : hasFrontmatter cs = false) :
    readMarkdown cs = cs := by
  simp [readMarkdown, h]

theorem trimStartL_cons_of_not {c : Char} (l : List Char) (h : isJsWs c = false) :
    trimStartL (c :: l) = c :: l := by
  simp [trimStartL, List.dropWhile_cons, h]

theorem trimStartL_ws_prefix {pre : List Char} (h : ∀ c ∈ pre, isJsWs c = true)
    {d : Char} (l : List Char) (hd : isJsWs d = false) :
    trimStartL (pre ++ d :: l) = d :: l := by
  induction pre with
  | nil => simpa using trimStartL_cons_of_not l hd
  | cons x xs ih =>
    have hx : isJsWs x = true := h x (by simp)
    have ih2 := ih (fun c hc => h c (by simp [hc]))
    simpa [trimStartL, List.dropWhile_cons, hx] using ih2

theorem startsDashes_cons_false {c : Char} (l : List Char) (h : c ≠ '-') :
    startsDashes (c :: l) = false := by
  by_contra hs
  have hs : startsDashes (c :: l) = true := by
    cases hb : startsDashes (c :: l) with
    | true => rfl
    | false => exact absurd hb hs
  have heq : (c :: l).take 3 = toL "---" := eq_of_beq hs
  have heq2 : c :: l.take 2 = toL "---" := heq
  injection heq2 with h1 h2
  exact h h1

theorem findTerm_none (t : List Char) (h : ∀ i < t.length, startsClose (t.drop i) = false) :
    findTerm t = none := by
  induction t with
  | nil => rfl
  | cons c cs ih =>
    have h0 : startsClose (c :: cs) = false := by simpa using h 0 (by simp)
    rw [findTerm, if_neg (by simp [h0])]
    exact ih fun i hi => by simpa using h (i + 1) (by simpa using Nat.succ_lt_succ hi)

theorem findTerm_first (a tail : List Char) (hc : startsClose tail = true)
    (h : ∀ i < a.length, startsClose ((a ++ tail).drop i) = false) :
    findTerm (a ++ tail) = some (dropNl (tail.drop 4)) := by
  induction a with
  | nil =>
    cases tail with
    | nil => simp [startsClose, toL] at hc
    | cons c cs =>
      rw [List.nil_append, findTerm, if_pos (by simp [hc])]
      rfl
  | cons x xs ih =>
    have h0 : startsClose (x :: (xs ++ tail)) = false := by simpa using h 0 (by simp)
    rw [List.cons_append, findTerm, if_neg (by simp [h0])]
    exact ih fun i hi => by simpa using h (i + 1) (by simpa using Nat.succ_lt_succ hi)

theorem trimStartL_dropNl (b : List Char) : trimStartL (dropNl b) = trimStartL b := by
  induction b with
  | nil => rfl
  | cons c cs ih =>
    by_cases h : c = '\n'
    · subst h
      have h1 : dropNl ('\n' :: cs) = dropNl cs := by simp [dropNl]
      have h2 : trimStartL ('\n' :: cs) = trimStartL cs := by
        simp [trimStartL, List.dropWhile_cons, isJsWs]
      rw [h1, ih, h2]
    · have h1 : dropNl (c :: cs) = c :: cs := by
        simp [dropNl, List.dropWhile_cons, h]
      rw [h1]

theorem joinP_ne (a b : List Char) : joinP a b ≠ a := by
  intro h
  have := congrArg List.length h
  simp [joinP] at this

/-! ## Claim theorems -/

/-- C1: for a stack directory with at least one immediate subdirectory,
`getCategoriesForStack` returns exactly one category per immediate
subdirectory (in listing order), each listing only the `.md` files directly
inside that subdirectory; no returned category is the `__root__` sentinel
(every category's `absPath` is a proper subdirectory, not the stack
directory), and loose `.md` files of the stack directory itself appear in no
category (each category's file list is drawn from its own subdirectory's
listing).  With zero subdirectories it returns exactly one category named
`__root__` whose files are the stack directory's `.md` files in listing
order and whose `absPath` is the stack directory itself. -/
theorem C1_getCategoriesForStack (stackPath : List Char) (entries : List FsEntry)
    (sub : List Char → List FsEntry) :
    (entries.filter FsEntry.isDir = [] →
      getCategoriesForStack stackPath entries sub =
        [⟨rootName, mdNamesOf entries, stackPath⟩]) ∧
    (entries.filter FsEntry.isDir ≠ [] →
      getCategoriesForStack stackPath entries sub =
        (entries.filter FsEntry.isDir).map
          (fun d => ⟨d.name, mdNamesOf (sub d.name), joinP stackPath d.name⟩) ∧
      (∀ c ∈ getCategoriesForStack stackPath entries sub, c.absPath ≠ stackPath) ∧
      (∀ c ∈ getCategoriesForStack stackPath entries sub,
          ∀ f ∈ c.files, f ∈ mdNamesOf (sub c.name))) := by
  constructor
  · intro h
    simp [getCategoriesForStack, h]
  · intro h
    have hne : (entries.filter FsEntry.isDir).isEmpty = false := by
      simpa [List.isEmpty_iff] using h
    have hmap : getCategoriesForStack stackPath entries sub =
        (entries.filter FsEntry.isDir).map
          (fun d => ⟨d.name, mdNamesOf (sub d.name), joinP stackPath d.name⟩) := by
      simp [getCategoriesForStack, hne]
    refine ⟨hmap, ?_, ?_⟩
    · intro c hc
      rw [hmap] at hc
      obtain ⟨d, _, rfl⟩ := List.mem_map.mp hc
      exact joinP_ne stackPath d.name
    · intro c hc f hf
      rw [hmap] at hc
      obtain ⟨d, _, rfl⟩ := List.mem_map.mp hc
      simpa using hf

/-- Witness for C1: a stack with only loose files yields the `__root__`
sentinel; a stack with a subdirectory and a loose file yields exactly the
subdirectory category, loose file invisible. -/
theorem C1_witness :
    (([⟨toL "a.md", false, true⟩] : List FsEntry).filter FsEntry.isDir = [] ∧
      getCategoriesForStack (toL "/s") [⟨toL "a.md", false, true⟩] (fun _ => []) =
        [⟨rootName, [toL "a.md"], toL "/s"⟩]) ∧
    (([⟨toL "rules", true, false⟩, ⟨toL "loose.md", false, true⟩] : List FsEntry).filter
        FsEntry.isDir ≠ [] ∧
      getCategoriesForStack (toL "/s")
          [⟨toL "rules", true, false⟩, ⟨toL "loose.md", false, true⟩]
          (fun _ => [⟨toL "b.md", false, true⟩]) =
        [⟨toL "rules", [toL "b.md"], toL "/s/rules"⟩]) := by
  refine ⟨⟨by decide, (C1_getCategoriesForStack _ _ _).1 (by decide)⟩,
    ⟨by decide, ?_⟩⟩
  exact ((C1_getCategoriesForStack (toL "/s")
    [⟨toL "rules", true, false⟩, ⟨toL "loose.md", false, true⟩]
    (fun _ => [⟨toL "b.md", false, true⟩])).2 (by decide)).1.trans (by decide)

/-- C2 counterexample: on `"---\na\n---\n  b"` the code returns `"b"` (the
remainder is additionally `trimStart`-ed), while the claim as stated — the
content with the delimited block plus trailing blank lines removed — gives
`"  b"`. -/
theorem C2_counterexample :
    hasFrontmatter (toL "---\na\n---\n  b") = true ∧
    readMarkdown (toL "---\na\n---\n  b") = toL "b" ∧
    specStripC2 (toL "---\na\n---\n  b") = toL "  b" ∧
    readMarkdown (toL "---\na\n---\n  b") ≠ specStripC2 (toL "---\na\n---\n  b") :=
  ⟨by decide, by decide, by decide, by decide⟩

/-- C2 amended: if the content literally begins with `---` and the block is
closed — the closing delimiter being the first later occurrence of `---`
immediately followed by a newline, not necessarily on a line of its own —
`readMarkdown` returns the text after the closing delimiter and its run of
newlines with any remaining leading whitespace also stripped (equivalently,
the `trimStart` of the remainder).  If the content (after ignoring leading
whitespace) does not begin with `---`, it passes through unchanged. -/
theorem C2_readMarkdown_amended :
    (∀ a b : List Char,
        (∀ i < a.length, startsClose ((a ++ toL "---\n" ++ b).drop i) = false) →
        readMarkdown (toL "---" ++ (a ++ toL "---\n" ++ b)) = trimStartL b) ∧
    (∀ cs : List Char, hasFrontmatter cs = false → readMarkdown cs = cs) := by
  constructor
  · intro a b h
    have hterm : findTerm (a ++ toL "---\n" ++ b) = some (dropNl b) := by
      have hc : startsClose (toL "---\n" ++ b) = true := by
        cases b <;> rfl
      simpa using findTerm_first a (toL "---\n" ++ b) hc (by simpa using h)
    have hfm : hasFrontmatter (toL "---" ++ (a ++ toL "---\n" ++ b)) = true := by
      have : trimStartL (toL "---" ++ (a ++ toL "---\n" ++ b)) =
          toL "---" ++ (a ++ toL "---\n" ++ b) :=
        trimStartL_cons_of_not _ (by decide)
      simp only [hasFrontmatter, this]
      cases a <;> rfl
    have hrepl : replaceFm (toL "---" ++ (a ++ toL "---\n" ++ b)) = dropNl b := by
      have hsd : startsDashes (toL "---" ++ (a ++ toL "---\n" ++ b)) = true := by
        cases a <;> rfl
      rw [replaceFm, if_pos (by simpa using hsd)]
      have hdrop : (toL "---" ++ (a ++ toL "---\n" ++ b)).drop 3 =
          a ++ toL "---\n" ++ b := rfl
      rw [hdrop, hterm]
    rw [readMarkdown, if_pos (by simpa using hfm), hrepl, trimStartL_dropNl]
  · intro cs h
    exact readMarkdown_no_fm h

/-- Witness for the amended C2 at a concrete closed frontmatter block. -/
theorem C2_witness :
    (∀ i < (toL "\nt\n").length,
        startsClose ((toL "\nt\n" ++ toL "---\n" ++ toL "body").drop i) = false) ∧
    readMarkdown (toL "---" ++ (toL "\nt\n" ++ toL "---\n" ++ toL "body")) =
      trimStartL (toL "body") :=
  ⟨by decide, C2_readMarkdown_amended.1 (toL "\nt\n") (toL "body") (by decide)⟩

/-- C3 counterexample: stripping is not idempotent.  For
`"---\na\n---\n---\nb\n---\nc"` one strip yields `"---\nb\n---\nc"`, which
still begins with `---`, so a second strip removes a further block. -/
theorem C3_counterexample :
    readMarkdown (readMarkdown (toL "---\na\n---\n---\nb\n---\nc")) ≠
      readMarkdown (toL "---\na\n---\n---\nb\n---\nc") := by decide

/-- C3 amended: stripping is not idempotent for every string; it is
idempotent for every input whose once-stripped result does not begin, after
leading whitespace, with `---` — whenever `hasFrontmatter (strip x)` is
false, `strip(strip(x)) = strip(x)`. -/
theorem C3_strip_idempotent_amended :
    ∀ x : List Char, hasFrontmatter (readMarkdown x) = false →
      readMarkdown (readMarkdown x) = readMarkdown x :=
  fun _ h => readMarkdown_no_fm h

/-- Witness for the amended C3 at a concrete frontmatter-bearing input. -/
theorem C3_witness :
    hasFrontmatter (readMarkdown (toL "---\nt\n---\nbody")) = false ∧
    readMarkdown (readMarkdown (toL "---\nt\n---\nbody")) =
      readMarkdown (toL "---\nt\n---\nbody") :=
  ⟨by decide, C3_strip_idempotent_amended (toL "---\nt\n---\nbody") (by decide)⟩

/-- C10: if the content starts with `---` but no later `---` immediately
followed by a newline exists, nothing is removed (the content, which has no
leading whitespace, is returned unchanged, delimiter line retained); and if
the first `---` is preceded by (nonempty) whitespace, no block is removed
either — the result is the content with only its leading whitespace
stripped, the `---` delimiter retained. -/
theorem C10_readMarkdown_edges :
    (∀ t : List Char, (∀ i < t.length, startsClose (t.drop i) = false) →
        readMarkdown (toL "---" ++ t) = toL "---" ++ t) ∧
    (∀ (w : Char) (ws r : List Char), isJsWs w = true →
        (∀ c ∈ ws, isJsWs c = true) →
        readMarkdown (w :: (ws ++ toL "---" ++ r)) = toL "---" ++ r) := by
  constructor
  · intro t h
    have hfm : hasFrontmatter (toL "---" ++ t) = true := by
      have : trimStartL (toL "---" ++ t) = toL "---" ++ t :=
        trimStartL_cons_of_not _ (by decide)
      simp only [hasFrontmatter, this]
      cases t <;> rfl
    have hrepl : replaceFm (toL "---" ++ t) = toL "---" ++ t := by
      have hsd : startsDashes (toL "---" ++ t) = true := by cases t <;> rfl
      rw [replaceFm, if_pos (by simpa using hsd)]
      have hdrop : (toL "---" ++ t).drop 3 = t := rfl
      rw [hdrop, findTerm_none t h]
    rw [readMarkdown, if_pos (by simpa using hfm), hrepl]
    exact trimStartL_cons_of_not _ (by decide)
  · intro w ws r hw hws
    have htrim : trimStartL (w :: (ws ++ toL "---" ++ r)) = toL "---" ++ r := by
      have : w :: (ws ++ toL "---" ++ r) = (w :: ws) ++ '-' :: (toL "--" ++ r) := by
        simp [toL]
      rw [this]
      exact trimStartL_ws_prefix
        (fun c hc => by
          rcases List.mem_cons.mp hc with h | h
          · exact h ▸ hw
          · exact hws c h) _ (by decide)
    have hfm : hasFrontmatter (w :: (ws ++ toL "---" ++ r)) = true := by
      simp only [hasFrontmatter, htrim]
      cases r <;> rfl
    have hrepl : replaceFm (w :: (ws ++ toL "---" ++ r)) = w :: (ws ++ toL "---" ++ r) := by
      have hw' : w ≠ '-' := by
        intro hEq
        rw [hEq] at hw
        simp [isJsWs] at hw
      rw [replaceFm, if_neg (by simp [startsDashes_cons_false _ hw'])]
    rw [readMarkdown, if_pos (by simpa using hfm), hrepl, htrim]

/-- Witness for C10: an unterminated block passes through whole; a
whitespace-preceded block loses only the leading whitespace. -/
theorem C10_witness :
    ((∀ i < (toL "\nno close").length, startsClose ((toL "\nno close").drop i) = false) ∧
      readMarkdown (toL "---" ++ toL "\nno close") = toL "---" ++ toL "\nno close") ∧
    (isJsWs ' ' = true ∧ (∀ c ∈ toL " ", isJsWs c = true) ∧
      readMarkdown (' ' :: (toL " " ++ toL "---" ++ toL "\nx")) = toL "---" ++ toL "\nx") :=
  ⟨⟨by decide, C10_readMarkdown_edges.1 (toL "\nno close") (by decide)⟩,
   ⟨by decide, by decide,
     C10_readMarkdown_edges.2 ' ' (toL " ") (toL "\nx") (by decide) (by decide)⟩⟩

theorem cursorEmit_spec (stackName : List Char) (b : Bool) (file raw : List Char) :
    cursorEmit stackName b file raw =
      (toL ".cursor/rules/" ++ baseNoExt file ++ toL ".mdc",
       toL "---\ndescription: " ++ orElseName (extractH1 (readMarkdown raw)) (baseNoExt file) ++
       toL "\nglobs: " ++ globForStack stackName ++ toL "\nalwaysApply: " ++ boolStr b ++
       toL "\n---\n\n" ++ readMarkdown raw) := by
  unfold cursorEmit buildMdcFrontmatter joinP
  have hdir : toL ".cursor/rules/" = toL ".cursor/rules" ++ ['/'] := by decide
  rw [hdir]
  simp [List.append_assoc]

/-- C4: profile B (Cursor) emission writes, for each file of the category and
in order, exactly one file at `.cursor/rules/<basename>.mdc` whose content is
the frontmatter block `---\ndescription: <derived title>\nglobs: <selected
glob>\nalwaysApply: <flag>\n---\n\n` followed by the frontmatter-stripped
body; in the concrete scenario of a source file `a.md` with body
`"# A Rule\ntext"` under stack `reactstack` and `alwaysApply = false`, the
single output is `.cursor/rules/a.mdc` carrying `description: A Rule`, the
JS/TS glob, `alwaysApply: false` and then the body ending in `text`. -/
theorem C4_injectCursor_spec :
    (∀ (cat : CategoryEntry) (stackName : List Char) (alwaysApply : Bool)
        (readF : List Char → List Char),
      injectCursor cat stackName alwaysApply readF =
        cat.files.map (fun file =>
          (toL ".cursor/rules/" ++ baseNoExt file ++ toL ".mdc",
           toL "---\ndescription: " ++
             orElseName (extractH1 (readMarkdown (readF (joinP cat.absPath file))))
               (baseNoExt file) ++
           toL "\nglobs: " ++ globForStack stackName ++
           toL "\nalwaysApply: " ++ boolStr alwaysApply ++ toL "\n---\n\n" ++
           readMarkdown (readF (joinP cat.absPath file))))) ∧
    injectCursor ⟨toL "rules", [toL "a.md"], toL "/reg/cursor/reactstack/rules"⟩
        (toL "reactstack") false (fun _ => toL "# A Rule\ntext") =
      [(toL ".cursor/rules/a.mdc",
        toL "---\ndescription: A Rule\nglobs: **/*.\x7btsx,jsx,ts,js\x7d\nalwaysApply: false\n---\n\n# A Rule\ntext")] := by
  constructor
  · intro cat stackName alwaysApply readF
    simp only [injectCursor, cursorEmit_spec]
  · decide

theorem findGlob_eq_find (t : List (List Char × List Char)) (l : List Char) :
    findGlob t l =
      ((t.find? (fun kv => containsL l kv.1)).map Prod.snd).getD (toL "**/*") := by
  induction t with
  | nil => rfl
  | cons kv rest ih =>
    cases h : containsL l kv.1 with
    | true => simp [findGlob, h, List.find?_cons, List.find?]
    | false => simp [findGlob, h, List.find?_cons, List.find?, ih]

/-- C5 counterexample: the claim says vue and nuxt both map to the vue+ts/js
glob, but `nuxt` selects `**/*.\x7bvue,ts\x7d` while `vue` selects
`**/*.\x7bvue,ts,js\x7d`. -/
theorem C5_counterexample :
    globForStack (toL "nuxt") ≠ globForStack (toL "vue") ∧
    globForStack (toL "vue") = toL "**/*.\x7bvue,ts,js\x7d" ∧
    globForStack (toL "nuxt") = toL "**/*.\x7bvue,ts\x7d" :=
  ⟨by decide, by decide, by decide⟩

/-- C5 amended: `globForStack` returns the glob of the first entry of the
fixed ordered table (react, next, vue, angular, svelte, shopify, node,
python, laravel, nuxt — nuxt last) whose keyword is a case-insensitive
substring of the stack name, falling back to the match-everything pattern;
`nuxt` maps to vue+ts (without js).  `"Next.js App"` selects the JS glob,
`"unknown-thing"` the fallback, and — because nuxt sits after node —
`"nuxt-node"` selects node's glob. -/
theorem C5_globForStack_amended :
    (∀ s : List Char, globForStack s =
      ((STACK_GLOBS.find? (fun kv => containsL (lowerL s) kv.1)).map Prod.snd).getD
        (toL "**/*")) ∧
    globForStack (toL "Next.js App") = toL "**/*.\x7btsx,jsx,ts,js\x7d" ∧
    globForStack (toL "unknown-thing") = toL "**/*" ∧
    globForStack (toL "nuxt") = toL "**/*.\x7bvue,ts\x7d" ∧
    globForStack (toL "nuxt-node") = toL "**/*.\x7bts,js\x7d" :=
  ⟨fun s => findGlob_eq_find STACK_GLOBS (lowerL s),
   by decide, by decide, by decide, by decide⟩

/-- C7 counterexample: for a single file `One.md` whose stripped body is
`"x\n"`, the code emits the section `"# One\n\nx"` (the body is trimmed),
while the claim's `# <derivedTitle>\n\n<body>` gives `"# One\n\nx\n"`. -/
theorem C7_counterexample :
    (injectCopilotGlobal ⟨toL "r", [toL "One.md"], toL "/p"⟩ (fun _ => toL "x\n")).2 =
      toL "# One\n\nx" ∧
    specCopilotSingle ⟨toL "r", [toL "One.md"], toL "/p"⟩ (fun _ => toL "x\n") =
      toL "# One\n\nx\n" ∧
    (injectCopilotGlobal ⟨toL "r", [toL "One.md"], toL "/p"⟩ (fun _ => toL "x\n")).2 ≠
      specCopilotSingle ⟨toL "r", [toL "One.md"], toL "/p"⟩ (fun _ => toL "x\n") :=
  ⟨by decide, by decide, by decide⟩

/-- C7 amended: the consolidated (single-mode) Copilot output is one file
whose content joins, in the category's listing order, the sections
`# <derivedTitle>\n\n<trimmed body>` — the frontmatter-stripped body
additionally trimmed of leading and trailing whitespace — with the separator
`\n\n---\n\n`; the two-file scenario with titles `One`, `Two` and bodies
`x`, `y` produces exactly `"# One\n\nx" ++ sep ++ "# Two\n\ny"`. -/
theorem C7_injectCopilotGlobal_amended :
    (∀ (cat : CategoryEntry) (readF : List Char → List Char),
      injectCopilotGlobal cat readF =
        (toL ".github/copilot-instructions.md",
         List.intercalate (toL "\n\n---\n\n") (cat.files.map (fun f =>
           toL "# " ++
           orElseName (extractH1 (readMarkdown (readF (joinP cat.absPath f))))
             (baseNoMd f) ++
           toL "\n\n" ++ trimL (readMarkdown (readF (joinP cat.absPath f))))))) ∧
    injectCopilotGlobal ⟨toL "r", [toL "One.md", toL "Two.md"], toL "/p"⟩
        (fun p => if p == toL "/p/One.md" then toL "x" else toL "y") =
      (toL ".github/copilot-instructions.md", toL "# One\n\nx\n\n---\n\n# Two\n\ny") :=
  ⟨fun _ _ => rfl, by decide⟩

theorem cursorStep_ok {stackName : List Char} {b : Bool} {absPath : List Char}
    {readF : List Char → Except (List Char) (List Char)}
    {writeF : List Char → List Char → Except (List Char) Unit}
    {f raw : List Char} (h1 : readF (joinP absPath f) = .ok raw)
    (h2 : writeF (cursorEmit stackName b f raw).1 (cursorEmit stackName b f raw).2 = .ok ()) :
    cursorStep stackName b absPath readF writeF f = .ok (cursorEmit stackName b f raw) := by
  simp [cursorStep, h1, h2]

theorem cursorStep_err {stackName : List Char} {b : Bool} {absPath : List Char}
    {readF : List Char → Except (List Char) (List Char)}
    {writeF : List Char → List Char → Except (List Char) Unit}
    {f e : List Char}
    (h : readF (joinP absPath f) = .error e ∨
      ∃ raw, readF (joinP absPath f) = .ok raw ∧
        writeF (cursorEmit stackName b f raw).1 (cursorEmit stackName b f raw).2 = .error e) :
    cursorStep stackName b absPath readF writeF f = .error e := by
  rcases h with h | ⟨raw, h1, h2⟩
  · simp [cursorStep, h]
  · simp [cursorStep, h1, h2]

theorem processFiles_all_ok (step : List Char → Except (List Char) (List Char × List Char))
    (files : List (List Char)) (w : List Char → List Char × List Char)
    (h : ∀ f ∈ files, step f = .ok (w f)) :
    processFiles step files = (files.map w, none) := by
  induction files with
  | nil => rfl
  | cons f fs ih =>
    have hf : step f = .ok (w f) := h f (by simp)
    have hrest := ih fun g hg => h g (by simp [hg])
    simp [processFiles, hf, hrest]

theorem processFiles_first_err (step : List Char → Except (List Char) (List Char × List Char))
    (fs1 : List (List Char)) (f : List Char) (fs2 : List (List Char))
    (w : List Char → List Char × List Char) (e : List Char)
    (h1 : ∀ g ∈ fs1, step g = .ok (w g)) (h2 : step f = .error e) :
    processFiles step (fs1 ++ f :: fs2) = (fs1.map w, some e) := by
  induction fs1 with
  | nil => simp [processFiles, h2]
  | cons g gs ih =>
    have hg : step g = .ok (w g) := h1 g (by simp)
    have hrest := ih fun g' hg' => h1 g' (by simp [hg'])
    simp [processFiles, hg, hrest]

/-- C8: within a category, files are processed one at a time in listing
order; the first read or write failure aborts the emission immediately — the
writes performed are exactly those of the files preceding the failing one
(kept, not rolled back), nothing after the failing file is written, and the
error surfaces unmodified.  Without failures every file is written in order,
and a category with zero files performs no writes and raises no error. -/
theorem C8_injectCursorE_failure (stackName : List Char) (b : Bool) (nm absPath : List Char)
    (readF : List Char → Except (List Char) (List Char))
    (writeF : List Char → List Char → Except (List Char) Unit) :
    (injectCursorE ⟨nm, [], absPath⟩ stackName b readF writeF = ([], none)) ∧
    (∀ (files : List (List Char)) (rawOf : List Char → List Char),
      (∀ f ∈ files, readF (joinP absPath f) = .ok (rawOf f) ∧
        writeF (cursorEmit stackName b f (rawOf f)).1
          (cursorEmit stackName b f (rawOf f)).2 = .ok ()) →
      injectCursorE ⟨nm, files, absPath⟩ stackName b readF writeF =
        (files.map (fun f => cursorEmit stackName b f (rawOf f)), none)) ∧
    (∀ (fs1 : List (List Char)) (f : List Char) (fs2 : List (List Char))
        (rawOf : List Char → List Char) (e : List Char),
      (∀ g ∈ fs1, readF (joinP absPath g) = .ok (rawOf g) ∧
        writeF (cursorEmit stackName b g (rawOf g)).1
          (cursorEmit stackName b g (rawOf g)).2 = .ok ()) →
      (readF (joinP absPath f) = .error e ∨
        ∃ raw, readF (joinP absPath f) = .ok raw ∧
          writeF (cursorEmit stackName b f raw).1
            (cursorEmit stackName b f raw).2 = .error e) →
      injectCursorE ⟨nm, fs1 ++ f :: fs2, absPath⟩ stackName b readF writeF =
        (fs1.map (fun g => cursorEmit stackName b g (rawOf g)), some e)) := by
  refine ⟨rfl, ?_, ?_⟩
  · intro files rawOf h
    exact processFiles_all_ok _ files (fun f => cursorEmit stackName b f (rawOf f))
      fun f hf => cursorStep_ok (h f hf).1 (h f hf).2
  · intro fs1 f fs2 rawOf e h1 h2
    exact processFiles_first_err _ fs1 f fs2 (fun g => cursorEmit stackName b g (rawOf g)) e
      (fun g hg => cursorStep_ok (h1 g hg).1 (h1 g hg).2) (cursorStep_err h2)

/-- Witness for C8: three files where reading the second fails with `EIO` —
only the first file's write happens and the error is surfaced as-is. -/
theorem C8_witness :
    injectCursorE ⟨toL "r", [toL "a.md", toL "b.md", toL "c.md"], toL "/s"⟩ (toL "py") false
        (fun p => if p == toL "/s/b.md" then .error (toL "EIO") else .ok (toL "x"))
        (fun _ _ => .ok ()) =
      ([cursorEmit (toL "py") false (toL "a.md") (toL "x")], some (toL "EIO")) := by
  have h := (C8_injectCursorE_failure (toL "py") false (toL "r") (toL "/s")
      (fun p => if p == toL "/s/b.md" then .error (toL "EIO") else .ok (toL "x"))
      (fun _ _ => .ok ())).2.2 [toL "a.md"] (toL "b.md") [toL "c.md"] (fun _ => toL "x")
      (toL "EIO")
      (by intro g hg; simp at hg; subst hg; exact ⟨rfl, rfl⟩)
      (Or.inl rfl)
  simpa using h

/-- C9 counterexample: on a filesystem without the editor directory,
computing the inventory tree creates `<root>/<editor>/` — the state changes,
so `listTree` is not side-effect free as claimed. -/
theorem C9_counterexample :
    (getEditorTreeFS ([] : FS) (toL "r") (toL "cursor")).1 ≠ ([] : FS) ∧
    (getEditorTreeFS ([] : FS) (toL "r") (toL "cursor")).1 =
      [(joinP (toL "r") (toL "cursor"), [])] :=
  ⟨by decide, by decide⟩

/-- C9 amended: computing the inventory tree changes the filesystem only by
ensuring the editor directory `<root>/<editor>/` exists (the effect of the
`ensureDir` inside `getStacksForEditor`); in particular, when that directory
already exists the filesystem is left completely unchanged. -/
theorem C9_getEditorTree_amended :
    (∀ (fs : FS) (registry editor : List Char),
      (getEditorTreeFS fs registry editor).1 = ensureDirFS fs (joinP registry editor)) ∧
    (∀ (fs : FS) (registry editor : List Char),
      (lookupFS fs (joinP registry editor)).isSome = true →
      (getEditorTreeFS fs registry editor).1 = fs) := by
  refine ⟨fun fs r e => rfl, ?_⟩
  intro fs r e h
  show ensureDirFS fs (joinP r e) = fs
  cases hl : lookupFS fs (joinP r e) with
  | some v => simp [ensureDirFS, hl]
  | none => rw [hl] at h; simp at h

/-- Witness for the amended C9: with the editor directory present, the state
is unchanged. -/
theorem C9_witness :
    (lookupFS [(joinP (toL "r") (toL "cursor"), ([] : List FsEntry))]
        (joinP (toL "r") (toL "cursor"))).isSome = true ∧
    (getEditorTreeFS [(joinP (toL "r") (toL "cursor"), [])] (toL "r") (toL "cursor")).1 =
      [(joinP (toL "r") (toL "cursor"), [])] :=
  ⟨by decide, C9_getEditorTree_amended.2 _ (toL "r") (toL "cursor") (by decide)⟩

theorem isJsWs_of_isLineTerm {c : Char} (h : isLineTerm c = true) : isJsWs c = true := by
  have h4 : c = '\n' ∨ c = '\r' ∨ c = '\u2028' ∨ c = '\u2029' := by
    simpa [isLineTerm, or_assoc] using h
  rcases h4 with h | h | h | h <;> subst h <;> decide

theorem not_sharp_of_isLineTerm {c : Char} (h : isLineTerm c = true) : (c == '#') = false := by
  have h4 : c = '\n' ∨ c = '\r' ∨ c = '\u2028' ∨ c = '\u2029' := by
    simpa [isLineTerm, or_assoc] using h
  rcases h4 with h | h | h | h <;> subst h <;> decide

theorem notTerm_pos {c : Char} (h : isLineTerm c = false) : notTerm c = true := by
  simp [notTerm, h]

theorem notTerm_neg {c : Char} (h : isLineTerm c = true) : notTerm c = false := by
  simp [notTerm, h]

theorem isLineTerm_false_of_ws_false {c : Char} (h : isJsWs c = false) :
    isLineTerm c = false := by
  cases hl : isLineTerm c
  · rfl
  · rw [isJsWs_of_isLineTerm hl] at h
    exact absurd h (by simp)

theorem dropWhile_head_false {p : Char → Bool} {l t : List Char} {c : Char}
    (h : l.dropWhile p = c :: t) : p c = false := by
  induction l with
  | nil => simp at h
  | cons x xs ih =>
    by_cases hp : p x = true
    · rw [List.dropWhile_cons_of_pos hp] at h
      exact ih h
    · rw [List.dropWhile_cons_of_neg hp] at h
      injection h with h1 h2
      subst h1
      simpa using hp

theorem dropWhile_eq_drop_takeWhile (p : Char → Bool) (l : List Char) :
    l.dropWhile p = l.drop (l.takeWhile p).length := by
  induction l with
  | nil => rfl
  | cons c cs ih =>
    by_cases hp : p c = true
    · rw [List.dropWhile_cons_of_pos hp, List.takeWhile_cons_of_pos hp]
      simpa using ih
    · rw [List.dropWhile_cons_of_neg hp, List.takeWhile_cons_of_neg hp]
      rfl

theorem takeWhile_append_of_all {p : Char → Bool} {l1 : List Char} (l2 : List Char)
    (h : ∀ x ∈ l1, p x = true) :
    (l1 ++ l2).takeWhile p = l1 ++ l2.takeWhile p := by
  induction l1 with
  | nil => rfl
  | cons c cs ih =>
    have hc := h c (by simp)
    rw [List.cons_append, List.takeWhile_cons_of_pos hc,
      ih fun x hx => h x (by simp [hx])]
    rfl

theorem linesOf_decomp (s : List Char) :
    (s.dropWhile notTerm = [] → linesOf s = [s]) ∧
    (∀ t r, s.dropWhile notTerm = t :: r →
      linesOf s = (s.takeWhile notTerm) :: linesOf r) := by
  induction s with
  | nil =>
    refine ⟨fun _ => rfl, fun t r h => ?_⟩
    simp at h
  | cons c s' ih =>
    cases pc : isLineTerm c with
    | true =>
      have hstop : ¬(notTerm c = true) := by simp [notTerm_neg pc]
      refine ⟨fun h => ?_, fun t r h => ?_⟩
      · rw [List.dropWhile_cons_of_neg hstop] at h
        simp at h
      · rw [List.dropWhile_cons_of_neg hstop] at h
        injection h with h1 h2
        subst h1; subst h2
        rw [List.takeWhile_cons_of_neg hstop]
        simp [linesOf, pc]
    | false =>
      have hgo : notTerm c = true := notTerm_pos pc
      refine ⟨fun h => ?_, fun t r h => ?_⟩
      · rw [List.dropWhile_cons_of_pos hgo] at h
        have h1 := ih.1 h
        simp [linesOf, pc, h1]
      · rw [List.dropWhile_cons_of_pos hgo] at h
        have h1 := ih.2 t r h
        rw [List.takeWhile_cons_of_pos hgo]
        simp [linesOf, pc, h1]

theorem extractH1Core_false_eq (s : List Char) :
    extractH1Core s false = extractH1Core (afterLine s) true := by
  induction s with
  | nil => rfl
  | cons c rest ih =>
    have hL : extractH1Core (c :: rest) false = extractH1Core rest (isLineTerm c) := by
      simp [extractH1Core]
    cases pc : isLineTerm c with
    | true =>
      rw [hL, pc]
      have ha : afterLine (c :: rest) = rest := by
        rw [afterLine, List.dropWhile_cons_of_neg (by simp [notTerm_neg pc])]
        rfl
      rw [ha]
    | false =>
      rw [hL, pc, ih]
      have ha : afterLine (c :: rest) = afterLine rest := by
        rw [afterLine, List.dropWhile_cons_of_pos (notTerm_pos pc), afterLine]
      rw [ha]

theorem ws_run_confined (l : List Char)
    (h : (l.takeWhile notTerm).all isJsWs = false) :
    l.takeWhile isJsWs = (l.takeWhile notTerm).takeWhile isJsWs ∧
    (l.takeWhile isJsWs).length < (l.takeWhile notTerm).length := by
  induction l with
  | nil => simp at h
  | cons c cs ih =>
    cases ht : isLineTerm c with
    | true =>
      rw [List.takeWhile_cons_of_neg (by simp [notTerm_neg ht])] at h
      simp at h
    | false =>
      have hpos : notTerm c = true := notTerm_pos ht
      rw [List.takeWhile_cons_of_pos hpos] at h
      cases hw : isJsWs c with
      | false =>
        have hneg : ¬(isJsWs c = true) := by simp [hw]
        refine ⟨?_, ?_⟩ <;>
          simp [List.takeWhile_cons_of_neg hneg, List.takeWhile_cons_of_pos hpos]
      | true =>
        rw [List.all_cons, hw, Bool.true_and] at h
        obtain ⟨ih1, ih2⟩ := ih h
        refine ⟨?_, ?_⟩
        · simp [List.takeWhile_cons_of_pos hw, List.takeWhile_cons_of_pos hpos, ih1]
        · simp only [List.takeWhile_cons_of_pos hw, List.takeWhile_cons_of_pos hpos,
            List.length_cons]
          omega

theorem mem_dropWhile_of_mem_not {p : Char → Bool} {l : List Char} {x : Char}
    (hx : x ∈ l) (hpx : p x = false) : x ∈ l.dropWhile p := by
  have hsplit := List.takeWhile_append_dropWhile p l
  rcases List.mem_append.mp (by rw [hsplit]; exact hx) with h | h
  · exact absurd (List.mem_takeWhile_imp h) (by simp [hpx])
  · exact h

theorem trimL_not_empty_of_any {cap : List Char}
    (h : cap.any (fun c => !(isJsWs c)) = true) : (trimL cap).isEmpty = false := by
  obtain ⟨x, hx, hxw⟩ : ∃ x ∈ cap, !(isJsWs x) = true := by
    simpa [List.any_eq_true] using h
  have hxw' : isJsWs x = false := by simpa using hxw
  have hx1 : x ∈ trimStartL cap := mem_dropWhile_of_mem_not hx hxw'
  have hx2 : x ∈ trimL cap := by
    rw [trimL, trimEndL, List.mem_reverse]
    exact mem_dropWhile_of_mem_not (List.mem_reverse.mpr hx1) hxw'
  cases hc : trimL cap with
  | nil => rw [hc] at hx2; simp at hx2
  | cons a b => rfl

theorem h1At_guard (rest : List Char)
    (h : (rest.takeWhile notTerm).all isJsWs = false) :
    h1At rest = lineMatch ('#' :: rest.takeWhile notTerm) ∧
    (∀ cap, h1At rest = some cap → cap.any (fun c => !(isJsWs c)) = true) := by
  obtain ⟨heq, hlt⟩ := ws_run_confined rest h
  cases hw0 : (rest.takeWhile isJsWs).length with
  | zero =>
    have hmain : h1At rest = none := by rw [h1At, hw0]; rfl
    have hw0' : ((rest.takeWhile notTerm).takeWhile isJsWs).length = 0 := by
      have hc := congrArg List.length heq
      rw [hw0] at hc
      exact hc.symm
    have hlm : lineMatch ('#' :: rest.takeWhile notTerm) = none := by
      simp [lineMatch, hw0']
    refine ⟨by rw [hmain, hlm], fun cap hcap => ?_⟩
    rw [hmain] at hcap
    simp at hcap
  | succ m =>
    have hlamw : ((rest.takeWhile notTerm).takeWhile isJsWs).length = m + 1 := by
      have hc := congrArg List.length heq
      rw [hw0] at hc
      exact hc.symm
    have hltlam : m + 1 < (rest.takeWhile notTerm).length := by
      rw [hw0] at hlt
      exact hlt
    have hlamdrop : (rest.takeWhile notTerm).drop (m + 1) =
        (rest.takeWhile notTerm).dropWhile isJsWs := by
      rw [dropWhile_eq_drop_takeWhile isJsWs (rest.takeWhile notTerm), hlamw]
    have hne : (rest.takeWhile notTerm).drop (m + 1) ≠ [] := by
      intro hz
      have hzl := congrArg List.length hz
      rw [List.length_drop] at hzl
      simp at hzl
      omega
    obtain ⟨h0, t0, hht⟩ : ∃ h0 t0, (rest.takeWhile notTerm).drop (m + 1) = h0 :: t0 := by
      cases hcase : (rest.takeWhile notTerm).drop (m + 1) with
      | nil => exact absurd hcase hne
      | cons a b => exact ⟨a, b, rfl⟩
    have hdwlam : (rest.takeWhile notTerm).dropWhile isJsWs = h0 :: t0 := by
      rw [← hlamdrop]
      exact hht
    have hh0ws : isJsWs h0 = false := dropWhile_head_false hdwlam
    have hh0term : isLineTerm h0 = false := isLineTerm_false_of_ws_false hh0ws
    have hsplit : rest = rest.takeWhile notTerm ++ rest.dropWhile notTerm :=
      (List.takeWhile_append_dropWhile notTerm rest).symm
    have hrestdrop : rest.drop (m + 1) =
        (rest.takeWhile notTerm).drop (m + 1) ++ rest.dropWhile notTerm := by
      conv_lhs => rw [hsplit]
      exact List.drop_append_of_le_length (by omega)
    have hd : rest.drop (m + 1) = h0 :: (t0 ++ rest.dropWhile notTerm) := by
      rw [hrestdrop, hht]
      rfl
    have hmemt0 : ∀ x ∈ t0, notTerm x = true := by
      intro x hx
      have hx2 : x ∈ (rest.takeWhile notTerm).drop (m + 1) := by
        rw [hht]
        exact List.mem_cons_of_mem _ hx
      exact List.mem_takeWhile_imp (List.mem_of_mem_drop hx2)
    have hdwtake : (rest.dropWhile notTerm).takeWhile notTerm = [] := by
      cases hdw2 : rest.dropWhile notTerm with
      | nil => rfl
      | cons d r2 =>
        have hdfalse : notTerm d = false := dropWhile_head_false hdw2
        rw [List.takeWhile_cons_of_neg (by simp [hdfalse])]
    have hcapval : (h0 :: (t0 ++ rest.dropWhile notTerm)).takeWhile notTerm = h0 :: t0 := by
      rw [List.takeWhile_cons_of_pos (notTerm_pos hh0term),
        takeWhile_append_of_all _ hmemt0, hdwtake, List.append_nil]
    have hcap : h1At rest = some (h0 :: t0) := by
      rw [h1At, hw0, capAt, hd]
      simp [hh0term, hcapval]
    have hsharpline : lineMatch ('#' :: rest.takeWhile notTerm) =
        if ((rest.takeWhile notTerm).takeWhile isJsWs).length = 0 then none
        else if ((rest.takeWhile notTerm).takeWhile isJsWs).length <
            (rest.takeWhile notTerm).length then
          some ((rest.takeWhile notTerm).drop
            ((rest.takeWhile notTerm).takeWhile isJsWs).length)
        else if 2 ≤ (rest.takeWhile notTerm).length then
          some ((rest.takeWhile notTerm).drop ((rest.takeWhile notTerm).length - 1))
        else none := by
      simp [lineMatch]
    have hlm : lineMatch ('#' :: rest.takeWhile notTerm) = some (h0 :: t0) := by
      rw [hsharpline, hlamw, if_neg (by omega), if_pos hltlam, hht]
    refine ⟨by rw [hcap, hlm], fun cap hcap2 => ?_⟩
    rw [hcap] at hcap2
    injection hcap2 with hcc
    subst hcc
    simp [List.any_cons, hh0ws]

theorem extractH1Core_spec (n : Nat) :
    ∀ s : List Char, s.length ≤ n → noBareSharp s = true →
      extractH1Core s true = firstMatchL (linesOf s) ∧
      (∀ cap, extractH1Core s true = some cap →
        cap.any (fun c => !(isJsWs c)) = true) := by
  induction n with
  | zero =>
    intro s hs _
    have hnil : s = [] := List.length_eq_zero.mp (Nat.le_zero.mp hs)
    subst hnil
    exact ⟨rfl, fun cap hcap => by simp [extractH1Core] at hcap⟩
  | succ n ih =>
    intro s hs hg
    cases s with
    | nil => exact ⟨rfl, fun cap hcap => by simp [extractH1Core] at hcap⟩
    | cons c rest =>
      cases hterm : isLineTerm c with
      | true =>
        have hlines : linesOf (c :: rest) = [] :: linesOf rest := by
          simp [linesOf, hterm]
        have hsharp : (c == '#') = false := not_sharp_of_isLineTerm hterm
        have hcode : extractH1Core (c :: rest) true = extractH1Core rest true := by
          simp [extractH1Core, hsharp, hterm]
        have hg' : noBareSharp rest = true := by
          have hg2 := hg
          simp only [noBareSharp, hlines, List.all_cons, Bool.and_eq_true] at hg2
          exact hg2.2
        have hrest := ih rest (by simpa using Nat.le_of_succ_le_succ (by simpa using hs)) hg'
        constructor
        · rw [hcode, hlines]
          simp [firstMatchL, lineMatch, hrest.1]
        · intro cap hcap
          rw [hcode] at hcap
          exact hrest.2 cap hcap
      | false =>
        have hgo : notTerm c = true := notTerm_pos hterm
        cases hdw : rest.dropWhile notTerm with
        | nil =>
          have hlines : linesOf (c :: rest) = [c :: rest] := by
            apply (linesOf_decomp (c :: rest)).1
            rw [List.dropWhile_cons_of_pos hgo, hdw]
          have hafter : afterLine rest = [] := by rw [afterLine, hdw]; rfl
          have hlamrest : rest.takeWhile notTerm = rest := by
            have hsum := List.takeWhile_append_dropWhile notTerm rest
            rw [hdw, List.append_nil] at hsum
            exact hsum
          cases hsharp : (c == '#') with
          | false =>
            have hne : ¬(c = '#') := by simpa using hsharp
            have hnone : extractH1Core (c :: rest) true = none := by
              have hcode : extractH1Core (c :: rest) true = extractH1Core rest false := by
                simp [extractH1Core, hsharp, hterm]
              rw [hcode, extractH1Core_false_eq, hafter]
              rfl
            have hlm : lineMatch (c :: rest) = none := by
              simp [lineMatch, hne]
            refine ⟨?_, fun cap hcap => ?_⟩
            · rw [hnone, hlines]
              simp [firstMatchL, hlm]
            · rw [hnone] at hcap
              simp at hcap
          | true =>
            have hceq : c = '#' := by simpa using hsharp
            subst hceq
            have hbare : bareSharpLine ('#' :: rest) = false := by
              have hg2 := hg
              simp only [noBareSharp, hlines, List.all_cons, List.all_nil,
                Bool.and_eq_true, Bool.not_eq_true'] at hg2
              exact hg2.1
            have hall : (rest.takeWhile notTerm).all isJsWs = false := by
              rw [hlamrest]
              simpa [bareSharpLine] using hbare
            obtain ⟨hg1, hg2⟩ := h1At_guard rest hall
            rw [hlamrest] at hg1
            cases hh : h1At rest with
            | some cap =>
              have hcode : extractH1Core ('#' :: rest) true = some cap := by
                simp [extractH1Core, hh]
              have hlm : lineMatch ('#' :: rest) = some cap := by
                rw [← hg1]
                exact hh
              refine ⟨?_, fun cap2 hcap => ?_⟩
              · rw [hcode, hlines]
                simp [firstMatchL, hlm]
              · rw [hcode] at hcap
                injection hcap with hcc
                subst hcc
                exact hg2 _ hh
            | none =>
              have hnone : extractH1Core ('#' :: rest) true = none := by
                have hcode : extractH1Core ('#' :: rest) true = extractH1Core rest false := by
                  simp [extractH1Core, hh]
                rw [hcode, extractH1Core_false_eq, hafter]
                rfl
              have hlm : lineMatch ('#' :: rest) = none := by
                rw [← hg1]
                exact hh
              refine ⟨?_, fun cap hcap => ?_⟩
              · rw [hnone, hlines]
                simp [firstMatchL, hlm]
              · rw [hnone] at hcap
                simp at hcap
        | cons t r =>
          have hlines : linesOf (c :: rest) = (c :: rest.takeWhile notTerm) :: linesOf r := by
            have hdec := (linesOf_decomp (c :: rest)).2 t r
              (by rw [List.dropWhile_cons_of_pos hgo, hdw])
            rw [List.takeWhile_cons_of_pos hgo] at hdec
            exact hdec
          have hafter : afterLine rest = r := by rw [afterLine, hdw]; rfl
          have hlenr : r.length ≤ n := by
            have hsum := congrArg List.length (List.takeWhile_append_dropWhile notTerm rest)
            rw [hdw] at hsum
            simp only [List.length_append, List.length_cons] at hsum
            have hslen : (c :: rest).length ≤ n + 1 := hs
            simp only [List.length_cons] at hslen
            omega
          have hgpair : bareSharpLine (c :: rest.takeWhile notTerm) = false ∧
              noBareSharp r = true := by
            have hg2 := hg
            simp only [noBareSharp, hlines, List.all_cons, Bool.and_eq_true,
              Bool.not_eq_true'] at hg2
            exact ⟨hg2.1, hg2.2⟩
          have hr := ih r hlenr hgpair.2
          cases hsharp : (c == '#') with
          | false =>
            have hne : ¬(c = '#') := by simpa using hsharp
            have hcode : extractH1Core (c :: rest) true = extractH1Core r true := by
              have hstep : extractH1Core (c :: rest) true = extractH1Core rest false := by
                simp [extractH1Core, hsharp, hterm]
              rw [hstep, extractH1Core_false_eq, hafter]
            have hlm : lineMatch (c :: rest.takeWhile notTerm) = none := by
              simp [lineMatch, hne]
            refine ⟨?_, fun cap hcap => ?_⟩
            · rw [hcode, hlines]
              simp [firstMatchL, hlm, hr.1]
            · rw [hcode] at hcap
              exact hr.2 cap hcap
          | true =>
            have hceq : c = '#' := by simpa using hsharp
            subst hceq
            have hall : (rest.takeWhile notTerm).all isJsWs = false := by
              simpa [bareSharpLine] using hgpair.1
            obtain ⟨hg1, hg2⟩ := h1At_guard rest hall
            cases hh : h1At rest with
            | some cap =>
              have hcode : extractH1Core ('#' :: rest) true = some cap := by
                simp [extractH1Core, hh]
              have hlm : lineMatch ('#' :: rest.takeWhile notTerm) = some cap := by
                rw [← hg1]
                exact hh
              refine ⟨?_, fun cap2 hcap => ?_⟩
              · rw [hcode, hlines]
                simp [firstMatchL, hlm]
              · rw [hcode] at hcap
                injection hcap with hcc
                subst hcc
                exact hg2 _ hh
            | none =>
              have hcode : extractH1Core ('#' :: rest) true = extractH1Core r true := by
                have hstep : extractH1Core ('#' :: rest) true = extractH1Core rest false := by
                  simp [extractH1Core, hh]
                rw [hstep, extractH1Core_false_eq, hafter]
              have hlm : lineMatch ('#' :: rest.takeWhile notTerm) = none := by
                rw [← hg1]
                exact hh
              refine ⟨?_, fun cap hcap => ?_⟩
              · rw [hcode, hlines]
                simp [firstMatchL, hlm, hr.1]
              · rw [hcode] at hcap
                exact hr.2 cap hcap

/-- C6 counterexample: on the body `"#\nTitle"` no single line matches
`# ...`, so the claim derives the title from the filename (`file` for
`file.md`), but the code's regex lets `\s+` cross the newline and captures
`Title`. -/
theorem C6_counterexample :
    codeTitle (toL "#\nTitle") (baseNoExt (toL "file.md")) = toL "Title" ∧
    specTitleSL (toL "#\nTitle") (baseNoExt (toL "file.md")) = toL "file" ∧
    codeTitle (toL "#\nTitle") (baseNoExt (toL "file.md")) ≠
      specTitleSL (toL "#\nTitle") (baseNoExt (toL "file.md")) :=
  ⟨by decide, by decide, by decide⟩

/-- C6 amended: the heading regex's `\s+` may cross line terminators, so the
single-line reading of title derivation holds only for bodies in which no
line consists of `#` followed solely by whitespace; under that guard the
derived title is the trimmed text of the first line matching `# ...` as a
single-line match, and the filename minus extension otherwise.  The body
`"# Hello World\nbody"` still derives `Hello World`. -/
theorem C6_title_amended :
    (∀ body fallback : List Char, noBareSharp body = true →
      codeTitle body fallback = specTitleSL body fallback) ∧
    codeTitle (toL "# Hello World\nbody") (toL "f") = toL "Hello World" := by
  constructor
  · intro body fallback hg
    obtain ⟨h1, h2⟩ := extractH1Core_spec body.length body (le_refl _) hg
    cases hc : extractH1Core body true with
    | none =>
      have hfm : firstMatchL (linesOf body) = none := by
        rw [← h1]
        exact hc
      simp [codeTitle, specTitleSL, extractH1, orElseName, hc, hfm]
    | some cap =>
      have hfm : firstMatchL (linesOf body) = some cap := by
        rw [← h1]
        exact hc
      have htrim : (trimL cap).isEmpty = false := trimL_not_empty_of_any (h2 cap hc)
      simp [codeTitle, specTitleSL, extractH1, orElseName, hc, hfm, htrim]
  · decide

/-- Witness for the amended C6 on a body with a proper single-line heading. -/
theorem C6_witness :
    noBareSharp (toL "## x\n# Real Title\nrest") = true ∧
    codeTitle (toL "## x\n# Real Title\nrest") (toL "fb") =
      specTitleSL (toL "## x\n# Real Title\nrest") (toL "fb") :=
  ⟨by decide,
   C6_title_amended.1 (toL "## x\n# Real Title\nrest") (toL "fb") (by decide)⟩

